import Mathlib

/-!
Verification of the recipe search engine (`crawler/recipe_search.py`).

The Python class `RecipeSearcher` builds four inverted indices over a list of
recipe records and answers five kinds of queries (title, ingredient,
cooking-method, dietary, general ranked search).  This file gives a shallow
embedding of that code and proves / refutes the specification claims about it.

Modelling conventions:
* Python `str` is modelled by Lean `String` restricted to its ASCII fragment:
  `str.lower` becomes a character-wise ASCII lower-casing, and the regex
  class `\w` (word character: letter, digit or underscore) becomes
  `isWordChar`.
* `re.findall(r'\b\w+\b', s)` returns exactly the maximal runs of `\w`
  characters of `s`; `tokenize` implements that scan directly.
* A Python `set` of recipe positions is a `Finset Nat`; a `defaultdict(set)`
  (and `dict.get(w, set())` on a plain dict) is a total function
  `String → Finset Nat` that is `∅` outside its support.
* Iteration order over a Python set is unspecified; where the code iterates
  over a set we iterate over `sortedIds`, ascending position order, one
  fixed admissible order.  No proved claim depends on this choice.
* Records materialised from index positions use `List.getD`; every position
  stored in an index is below the corpus length, so the default is inert.
-/

/-- ASCII fragment of Python `str.lower`, one character: maps A-Z (code
points 65 to 90) to a-z and leaves everything else unchanged. -/
def asciiLowerChar (c : Char) : Char :=
  if 65 ≤ c.toNat ∧ c.toNat ≤ 90 then Char.ofNat (c.toNat + 32) else c

/-- ASCII fragment of Python `str.lower` on a whole string. -/
def pyLower (s : String) : String :=
  String.mk (s.data.map asciiLowerChar)

/-- The regex class `\w` (ASCII fragment): letters, digits and the
underscore. -/
def isWordChar (c : Char) : Bool :=
  c.isAlphanum || c == '_'

/-- Run scanner: collects the maximal runs of characters satisfying `p`.
`acc` is the current run, reversed. -/
def runsAux (p : Char → Bool) (acc : List Char) : List Char → List (List Char)
  | [] => if acc.isEmpty then [] else [acc.reverse]
  | c :: cs =>
    if p c then
      runsAux p (c :: acc) cs
    else if acc.isEmpty then
      runsAux p [] cs
    else
      acc.reverse :: runsAux p [] cs

/-- Maximal runs of word characters of a character list: the scan performed
by `re.findall(r'\b\w+\b', ·)`. -/
def wordRuns (l : List Char) : List (List Char) :=
  runsAux isWordChar [] l

/-- `re.findall(r'\b\w+\b', s.lower())`, as used for every field and every
query of `RecipeSearcher`. -/
def tokenize (s : String) : List String :=
  (wordRuns (pyLower s).data).map fun cs => String.mk cs

/-- A recipe record, with the fields `build_search_indices` reads.  Opaque
passthrough fields (`url`, `prep_time`, `servings`, ...) are not indexed and
are omitted from the model. -/
structure Recipe where
  title : String
  ingredients : List String
  instructions : List String
  description : String
  category : String
  cuisine : String
  author : String
deriving DecidableEq, Repr, Inhabited

/-- The four inverted indices of `RecipeSearcher`.  Each is the total
function behind the Python dict: token to set of recipe positions, empty set
off-support. -/
structure Indices where
  titleIndex : String → Finset Nat
  ingredientIndex : String → Finset Nat
  instructionIndex : String → Finset Nat
  keywordIndex : String → Finset Nat

/-- `index[word].add(i)` on one dict-of-sets. -/
def addTo (idx : String → Finset Nat) (w : String) (i : Nat) :
    String → Finset Nat :=
  fun t => if t = w then insert i (idx t) else idx t

/-- Add recipe `i` under every word of `ws` (the per-field inner loop of
`build_search_indices`). -/
def addWords (idx : String → Finset Nat) (i : Nat) (ws : List String) :
    String → Finset Nat :=
  ws.foldl (fun m w => addTo m w i) idx

/-- Add recipe `i` under every token of every line of `lines` (the loops
over `ingredients` and `instructions`). -/
def addLines (idx : String → Finset Nat) (i : Nat) :
    List String → (String → Finset Nat)
  | [] => idx
  | line :: rest => addLines (addWords idx i (tokenize line)) i rest

/-- The loop over `['description', 'category', 'cuisine', 'author']`: a falsy
(empty) field text is skipped, a truthy one is tokenized into
`keyword_index`. -/
def addOtherFields (idx : String → Finset Nat) (i : Nat) :
    List String → (String → Finset Nat)
  | [] => idx
  | ft :: rest =>
    if ft = "" then addOtherFields idx i rest
    else addOtherFields (addWords idx i (tokenize ft)) i rest

/-- One iteration of the `for i, recipe in enumerate(self.recipes)` loop of
`build_search_indices`.  The source updates `ingredient_index` and
`keyword_index` (resp. `instruction_index` and `keyword_index`) in the same
pass over a line; the two dicts are independent, so each component below
receives exactly the source's update sequence for that component. -/
def indexRecipe (acc : Indices) (i : Nat) (r : Recipe) : Indices where
  titleIndex := addWords acc.titleIndex i (tokenize r.title)
  ingredientIndex := addLines acc.ingredientIndex i r.ingredients
  instructionIndex := addLines acc.instructionIndex i r.instructions
  keywordIndex :=
    addOtherFields
      (addLines (addLines acc.keywordIndex i r.ingredients) i r.instructions)
      i [r.description, r.category, r.cuisine, r.author]

/-- The empty dicts created at the top of `build_search_indices`. -/
def emptyIndices : Indices where
  titleIndex := fun _ => ∅
  ingredientIndex := fun _ => ∅
  instructionIndex := fun _ => ∅
  keywordIndex := fun _ => ∅

/-- `enumerate` loop: index the recipes starting at position `i`. -/
def buildFrom (acc : Indices) (i : Nat) : List Recipe → Indices
  | [] => acc
  | r :: rs => buildFrom (indexRecipe acc i r) (i + 1) rs

/-- `RecipeSearcher.build_search_indices`. -/
def build_search_indices (recipes : List Recipe) : Indices :=
  buildFrom emptyIndices 0 recipes

/-- The elements of a finite set of positions in ascending order: the fixed
admissible model of Python set iteration order used throughout. -/
def sortedIds (s : Finset Nat) : List Nat :=
  Quotient.liftOn s.val (fun l => l.insertionSort (· ≤ ·))
    (fun l l' h =>
      List.eq_of_perm_of_sorted
        ((List.perm_insertionSort _ l).trans
          (h.trans (List.perm_insertionSort _ l').symm))
        (List.sorted_insertionSort _ l) (List.sorted_insertionSort _ l'))

/-- The `matching_indices` loop shared by title, ingredient and
cooking-method search: starts at `None`, first token's id set replaces it,
later tokens intersect. -/
def searchLoop (idx : String → Finset Nat) (words : List String) :
    Option (Finset Nat) :=
  words.foldl
    (fun m w =>
      match m with
      | none => some (idx w)
      | some s => some (s ∩ idx w))
    none

/-- Id-level result of `search_by_title`: the final `matching_indices`
(empty for an empty token list, where the source returns `[]`). -/
def searchByTitleIds (recipes : List Recipe) (query : String) : Finset Nat :=
  match searchLoop (build_search_indices recipes).titleIndex (tokenize query) with
  | none => ∅
  | some s => s

/-- `RecipeSearcher.search_by_title`: materialise the matching positions as
records (set iteration order modelled as ascending positions). -/
def search_by_title (recipes : List Recipe) (query : String) : List Recipe :=
  if tokenize query = [] then []
  else (sortedIds (searchByTitleIds recipes query)).map
    fun i => recipes.getD i default

/-- Id-level result of `search_by_ingredient`. -/
def searchByIngredientIds (recipes : List Recipe) (query : String) : Finset Nat :=
  match searchLoop (build_search_indices recipes).ingredientIndex (tokenize query) with
  | none => ∅
  | some s => s

/-- `RecipeSearcher.search_by_ingredient`. -/
def search_by_ingredient (recipes : List Recipe) (query : String) : List Recipe :=
  if tokenize query = [] then []
  else (sortedIds (searchByIngredientIds recipes query)).map
    fun i => recipes.getD i default

/-- Per-token id set of cooking-method search: `title_index.get(word, set())
| instruction_index.get(word, set())`. -/
def methodWordIds (idxs : Indices) (w : String) : Finset Nat :=
  idxs.titleIndex w ∪ idxs.instructionIndex w

/-- Id-level result of `search_by_cooking_method`. -/
def searchByCookingMethodIds (recipes : List Recipe) (query : String) : Finset Nat :=
  match searchLoop (methodWordIds (build_search_indices recipes)) (tokenize query) with
  | none => ∅
  | some s => s

/-- `RecipeSearcher.search_by_cooking_method`. -/
def search_by_cooking_method (recipes : List Recipe) (query : String) :
    List Recipe :=
  if tokenize query = [] then []
  else (sortedIds (searchByCookingMethodIds recipes query)).map
    fun i => recipes.getD i default

/-- `recipe_scores[idx] += 1` on an insertion-ordered model of
`defaultdict(int)`: an association list of (position, score) pairs. -/
def bump (scores : List (Nat × Nat)) (idx : Nat) : List (Nat × Nat) :=
  if scores.any (fun p => p.1 = idx) then
    scores.map fun p => if p.1 = idx then (p.1, p.2 + 1) else p
  else
    scores ++ [(idx, 1)]

/-- The scoring loop of `search_general`: for each query word, bump every
position of `keyword_index.get(word, set())` (set iterated in ascending
order). -/
def accumScores (kidx : String → Finset Nat) (words : List String) :
    List (Nat × Nat) :=
  words.foldl
    (fun sc w => (sortedIds (kidx w)).foldl bump sc)
    []

/-- Stable descending insertion by score: an element is placed after every
earlier element of score ≥ its own.  Models Python `list.sort(key=score,
reverse=True)`, which is a stable sort. -/
def insertDesc (x : Nat × Nat) : List (Nat × Nat) → List (Nat × Nat)
  | [] => [x]
  | y :: ys => if x.2 ≤ y.2 then y :: insertDesc x ys else x :: y :: ys

/-- Stable sort, non-increasing by score. -/
def sortDesc (l : List (Nat × Nat)) : List (Nat × Nat) :=
  l.foldl (fun acc x => insertDesc x acc) []

/-- Id-level `search_general` over a given keyword index: the
(position, search_score) pairs in output order. -/
def searchGeneralIdsWith (kidx : String → Finset Nat) (query : String) :
    List (Nat × Nat) :=
  let queryWords := tokenize query
  if queryWords = [] then []
  else sortDesc (accumScores kidx queryWords)

/-- Id-level `search_general` of a corpus. -/
def searchGeneralIds (recipes : List Recipe) (query : String) :
    List (Nat × Nat) :=
  searchGeneralIdsWith (build_search_indices recipes).keywordIndex query

/-- The dict copy of `search_general` with the transient `'search_score'`
key added; Python dict equality is structural equality of this pair. -/
structure ScoredRecipe where
  recipe : Recipe
  search_score : Nat
deriving DecidableEq, Repr

/-- `RecipeSearcher.search_general`. -/
def search_general (recipes : List Recipe) (query : String) :
    List ScoredRecipe :=
  (searchGeneralIds recipes query).map
    fun p => ⟨recipes.getD p.1 default, p.2⟩

/-- The `dietary_keywords` table of `search_by_dietary_needs`. -/
def dietaryKeywords : List (String × List String) :=
  [("vegetarian", ["vegetarian", "veggie", "vegetables"]),
   ("seafood", ["salmon", "crab", "halibut", "clam", "fish", "seafood"]),
   ("dessert", ["pie", "cake", "dessert", "sweet", "cobbler", "cream"]),
   ("sauce", ["sauce", "dressing", "vinaigrette"]),
   ("soup", ["soup", "chowder", "broth"]),
   ("appetizer", ["appetizer", "dip", "spread"])]

/-- `dietary_keywords.get(dietary_type.lower(), [dietary_type])`. -/
def dietaryTerms (dietary_type : String) : List String :=
  match dietaryKeywords.find? (fun p => p.1 = pyLower dietary_type) with
  | some p => p.2
  | none => [dietary_type]

/-- `RecipeSearcher.search_by_dietary_needs`: one general search per synonym
term; a result is appended unless an equal record (score included) is
already present. -/
def search_by_dietary_needs (recipes : List Recipe) (dietary_type : String) :
    List ScoredRecipe :=
  (dietaryTerms dietary_type).foldl
    (fun matching k =>
      (search_general recipes k).foldl
        (fun m r => if r ∈ m then m else m ++ [r])
        matching)
    []

/-!
## JSON-level model of `build_search_indices`

Claim C5 is about inputs whose fields may be JSON `null`, absent, or of the
wrong shape.  `JVal` models the JSON values a field slot can hold; the
builder over `JVal` records raise either an `AttributeError` (calling
`.lower()` on a non-string) or a `TypeError` (iterating a non-iterable),
exactly where the Python code would.
-/

/-- A JSON field slot: absent key, `null`, a string, or a list. -/
inductive JVal where
  | absent : JVal
  | jnull : JVal
  | jstr : String → JVal
  | jlist : List JVal → JVal

/-- `recipe.get(key, d)`: the default only applies when the key is absent;
a stored `null` is returned as `null`. -/
def jGet (v d : JVal) : JVal :=
  match v with
  | .absent => d
  | _ => v

/-- `.lower()` on a JSON value: `AttributeError` unless it is a string. -/
def jLower : JVal → Except String String
  | .jstr s => .ok (pyLower s)
  | _ => .error "AttributeError"

/-- `for x in v`: lists iterate their items, strings iterate their
characters (as one-character strings), anything else raises `TypeError`. -/
def jIter : JVal → Except String (List JVal)
  | .jlist xs => .ok xs
  | .jstr s => .ok (s.data.map fun c => .jstr (String.mk [c]))
  | _ => .error "TypeError"

/-- Python truthiness of a JSON value (`if field_text:`). -/
def jTruthy : JVal → Bool
  | .absent => false
  | .jnull => false
  | .jstr s => s != ""
  | .jlist xs => !xs.isEmpty

/-- A recipe record as deserialised JSON: every indexed field is an
arbitrary JSON value. -/
structure RecipeJson where
  title : JVal
  ingredients : JVal
  instructions : JVal
  description : JVal
  category : JVal
  cuisine : JVal
  author : JVal

/-- Tokens of a string that the source has already lower-cased. -/
def tokenizeLowered (t : String) : List String :=
  (wordRuns t.data).map fun cs => String.mk cs

/-- The `ingredients` / `instructions` loop over JSON items: each item gets
`.lower()` (raising on non-strings), and its tokens are added to the
dedicated index and to `keyword_index`. -/
def addLinesJ (ded kw : String → Finset Nat) (i : Nat) :
    List JVal → Except String ((String → Finset Nat) × (String → Finset Nat))
  | [] => .ok (ded, kw)
  | item :: rest => do
    let line ← jLower item
    addLinesJ (addWords ded i (tokenizeLowered line))
      (addWords kw i (tokenizeLowered line)) i rest

/-- The loop over the four optional scalar fields at the JSON level: falsy
values (absent key, `null`, `""`, `[]`) are skipped; truthy non-strings
raise at `.lower()`. -/
def addOtherJ (kw : String → Finset Nat) (i : Nat) :
    List JVal → Except String (String → Finset Nat)
  | [] => .ok kw
  | v :: rest =>
    let ft := jGet v (.jstr "")
    if jTruthy ft then do
      let line ← jLower ft
      addOtherJ (addWords kw i (tokenizeLowered line)) i rest
    else
      addOtherJ kw i rest

/-- One `enumerate` iteration of `build_search_indices` on a JSON record. -/
def indexRecipeJ (acc : Indices) (i : Nat) (r : RecipeJson) :
    Except String Indices := do
  let title ← jLower (jGet r.title (.jstr ""))
  let tIdx := addWords acc.titleIndex i (tokenizeLowered title)
  let ings ← jIter (jGet r.ingredients (.jlist []))
  let ingPair ← addLinesJ acc.ingredientIndex acc.keywordIndex i ings
  let insts ← jIter (jGet r.instructions (.jlist []))
  let insPair ← addLinesJ acc.instructionIndex ingPair.2 i insts
  let kw ← addOtherJ insPair.2 i [r.description, r.category, r.cuisine, r.author]
  pure ⟨tIdx, ingPair.1, insPair.1, kw⟩

/-- The `enumerate` loop at the JSON level. -/
def buildFromJ (acc : Indices) (i : Nat) : List RecipeJson → Except String Indices
  | [] => .ok acc
  | r :: rs => do
    let acc' ← indexRecipeJ acc i r
    buildFromJ acc' (i + 1) rs

/-- `build_search_indices` on raw JSON records, with Python's raising
behaviour. -/
def build_search_indicesJ (recipes : List RecipeJson) : Except String Indices :=
  buildFromJ emptyIndices 0 recipes

/-- Well-shaped `title` slot: absent, or a string. -/
def scalarOk : JVal → Bool
  | .absent => true
  | .jstr _ => true
  | _ => false

/-- Well-shaped `ingredients` / `instructions` slot: absent, or a list of
strings. -/
def linesOk : JVal → Bool
  | .absent => true
  | .jlist xs => xs.all fun v => match v with | .jstr _ => true | _ => false
  | _ => false

/-- Well-shaped optional scalar slot: absent, `null`, or a string. -/
def optOk : JVal → Bool
  | .absent => true
  | .jnull => true
  | .jstr _ => true
  | _ => false

/-- A JSON record whose every slot is well shaped. -/
def wellShaped (r : RecipeJson) : Bool :=
  scalarOk r.title && linesOk r.ingredients && linesOk r.instructions &&
    optOk r.description && optOk r.category && optOk r.cuisine && optOk r.author

/-- String content of a JSON slot, empty for any non-string. -/
def jStrD (v : JVal) : String :=
  match v with
  | .jstr s => s
  | _ => ""

/-- List-of-strings content of a JSON slot, empty for any non-list. -/
def jLinesD (v : JVal) : List String :=
  match v with
  | .jlist xs => xs.map jStrD
  | _ => []

/-- Coercion of a well-shaped JSON record to the string-typed model:
absent / `null` slots become empty. -/
def toRecipe (r : RecipeJson) : Recipe where
  title := jStrD r.title
  ingredients := jLinesD r.ingredients
  instructions := jLinesD r.instructions
  description := jStrD r.description
  category := jStrD r.category
  cuisine := jStrD r.cuisine
  author := jStrD r.author


/-!
## Specification-side definitions

These definitions follow the wording of the specification / claims, to be
compared against the source embedding above.
-/

/-- The claim C4 tokenizer, as the spec words it: lowercase, then maximal
runs of alphanumeric characters (underscore excluded). -/
def tokenizeAlnumSpec (s : String) : List String :=
  (runsAux Char.isAlphanum [] (pyLower s).data).map fun cs => String.mk cs

/-- Number of query-token occurrences (with multiplicity in the token list)
that recipe position `j` matches in keyword index `kidx`. -/
def matchCount (kidx : String → Finset Nat) (ws : List String) (j : Nat) : Nat :=
  ws.countP fun w => decide (j ∈ kidx w)

/-- Number of distinct query tokens of `q` that recipe position `j` matches
in the keyword index of `recipes` (the quantity claim C1 names). -/
def distinctMatched (recipes : List Recipe) (q : String) (j : Nat) : Nat :=
  (tokenize q).dedup.countP fun w =>
    decide (j ∈ (build_search_indices recipes).keywordIndex w)

/-- A token is in the keyword material of a recipe: it occurs in some
ingredients line, some instructions line, or one of the four optional
scalar fields.  The title is deliberately not included. -/
def keywordMem (t : String) (r : Recipe) : Prop :=
  (∃ l ∈ r.ingredients, t ∈ tokenize l) ∨
  (∃ l ∈ r.instructions, t ∈ tokenize l) ∨
  t ∈ tokenize r.description ∨ t ∈ tokenize r.category ∨
  t ∈ tokenize r.cuisine ∨ t ∈ tokenize r.author

/-- First-occurrence deduplication: keep each element the first time it
appears. -/
def dedupFirst {α : Type} [DecidableEq α] (l : List α) : List α :=
  l.foldl (fun acc x => if x ∈ acc then acc else acc ++ [x]) []

/-- Score association list of the scoring loop, read as a function:
the total score recorded for position `j` (0 when absent). -/
def scoreOf (sc : List (Nat × Nat)) (j : Nat) : Nat :=
  ((sc.filter fun p => p.1 = j).map Prod.snd).sum

/-- Well-formedness of the score association list: distinct keys, positive
scores.  Holds for every state the scoring loop reaches. -/
def ScoresWF (sc : List (Nat × Nat)) : Prop :=
  (sc.map Prod.fst).Nodup ∧ ∀ p ∈ sc, 0 < p.2

/-!
## Concrete corpora used by witnesses and counterexamples
-/

/-- Sample recipe: grilled salmon. -/
def sampleSalmon : Recipe :=
  ⟨"Grilled King Salmon", ["2 lb salmon", "1 cup white wine"],
   ["Grill salmon 10 minutes"], "", "", "", ""⟩

/-- Sample recipe: blackberry cobbler. -/
def sampleCobbler : Recipe :=
  ⟨"Blackberry Cobbler", ["2 cups blackberries", "1 cup flour"],
   ["Bake cobbler 45 minutes"], "", "", "", ""⟩

/-- Two-recipe sample corpus. -/
def sampleCorpus : List Recipe := [sampleSalmon, sampleCobbler]

/-- A well-shaped JSON record (absent and null optional fields included). -/
def sampleJson : List RecipeJson :=
  [⟨JVal.jstr "Herbal Tea", JVal.jlist [JVal.jstr "Hot water"], JVal.absent,
    JVal.jnull, JVal.absent, JVal.absent, JVal.jstr "Bob"⟩]

example : tokenize "Grilled, King & Salmon!" = ["grilled", "king", "salmon"] := by decide
example : tokenize "" = [] := by decide
example : tokenize "!!!" = [] := by decide
example : searchGeneralIds sampleCorpus "salmon wine" = [(0, 2)] := by decide
example : searchGeneralIds sampleCorpus "salmon salmon" = [(0, 2)] := by decide
example : searchByTitleIds sampleCorpus "salmon" = {0} := by decide
example : searchByCookingMethodIds sampleCorpus "grill" = {0} := by decide
example : searchByCookingMethodIds sampleCorpus "grilled" = {0} := by decide
example : (search_by_dietary_needs sampleCorpus "dessert").map (fun r => r.recipe.title) = ["Blackberry Cobbler"] := by decide

/-!
## Character and tokenizer lemmas
-/

theorem toNat_ofNat_valid {n : Nat} (hv : n.isValidChar) :
    (Char.ofNat n).toNat = n := by
  simp [Char.ofNat, Char.ofNatAux, hv, Char.toNat, UInt32.toNat, BitVec.toNat_ofNatLt]

theorem asciiLowerChar_not_upper (c : Char) :
    ¬(65 ≤ (asciiLowerChar c).toNat ∧ (asciiLowerChar c).toNat ≤ 90) := by
  unfold asciiLowerChar
  by_cases h : 65 ≤ c.toNat ∧ c.toNat ≤ 90
  · rw [if_pos h]
    have hv : (c.toNat + 32).isValidChar := by left; omega
    rw [toNat_ofNat_valid hv]
    omega
  · rw [if_neg h]
    exact h

theorem asciiLowerChar_idem (c : Char) :
    asciiLowerChar (asciiLowerChar c) = asciiLowerChar c := by
  conv_lhs => rw [asciiLowerChar]
  rw [if_neg (asciiLowerChar_not_upper c)]

theorem pyLower_idem (s : String) : pyLower (pyLower s) = pyLower s := by
  unfold pyLower
  refine congrArg String.mk ?_
  show (s.data.map asciiLowerChar).map asciiLowerChar = s.data.map asciiLowerChar
  rw [List.map_map]
  exact List.map_congr_left fun a _ => asciiLowerChar_idem a

theorem tokenize_pyLower (s : String) : tokenize (pyLower s) = tokenize s := by
  unfold tokenize
  rw [pyLower_idem]

theorem runsAux_cons_true {p : Char → Bool} {c : Char} (hp : p c = true)
    (acc cs : List Char) :
    runsAux p acc (c :: cs) = runsAux p (c :: acc) cs := by
  rw [runsAux, hp]
  simp

theorem runsAux_cons_false {p : Char → Bool} {c : Char} (hp : p c = false)
    (acc cs : List Char) :
    runsAux p acc (c :: cs) =
      if acc.isEmpty then runsAux p [] cs else acc.reverse :: runsAux p [] cs := by
  rw [runsAux, hp]
  simp

theorem modifyHead_nil_rev (t : List (List Char)) :
    (t.modifyHead fun cs => List.reverse [] ++ cs) = t := by
  cases t with
  | nil => rfl
  | cons x xs =>
    show (List.reverse [] ++ x) :: xs = x :: xs
    rw [List.reverse_nil, List.nil_append]

theorem runsAux_eq_splitOnP (p : Char → Bool) (acc : List Char) (l : List Char) :
    runsAux p acc l =
      (((l.splitOnP fun c => !p c).modifyHead fun cs => acc.reverse ++ cs).filter
        fun cs => !cs.isEmpty) := by
  induction l generalizing acc with
  | nil =>
    rw [runsAux, List.splitOnP_nil]
    cases acc with
    | nil => simp
    | cons a as =>
      show [(a :: as).reverse] = List.filter _ [(a :: as).reverse ++ []]
      rw [List.append_nil, List.filter_cons, if_pos (by simp)]
      rfl
  | cons c cs ih =>
    cases hp : p c with
    | true =>
      rw [runsAux_cons_true hp, List.splitOnP_cons, if_neg (by simp [hp]),
        List.modifyHead_modifyHead]
      have hcomp : ((fun cs => acc.reverse ++ cs) ∘ List.cons c) =
          fun cs : List Char => (c :: acc).reverse ++ cs := by
        funext x
        simp
      rw [hcomp]
      exact ih (c :: acc)
    | false =>
      rw [List.splitOnP_cons, if_pos (by simp [hp]), runsAux_cons_false hp]
      cases acc with
      | nil =>
        show runsAux p [] cs =
          List.filter (fun cs => !cs.isEmpty) (List.splitOnP (fun c => !p c) cs)
        rw [ih [], modifyHead_nil_rev]
      | cons a as =>
        show (a :: as).reverse :: runsAux p [] cs =
          List.filter _ (((a :: as).reverse ++ []) :: _)
        rw [List.append_nil, List.filter_cons, if_pos (by simp)]
        rw [ih [], modifyHead_nil_rev]

theorem wordRuns_eq_splitOnP (l : List Char) :
    wordRuns l =
      ((l.splitOnP fun c => !isWordChar c).filter fun cs => !cs.isEmpty) := by
  rw [wordRuns, runsAux_eq_splitOnP, modifyHead_nil_rev]

theorem runsAux_append_sep (p : Char → Bool) (sep : Char) (hsep : p sep = false)
    (acc xs ys : List Char) :
    runsAux p acc (xs ++ sep :: ys) = runsAux p acc xs ++ runsAux p [] ys := by
  induction xs generalizing acc with
  | nil =>
    rw [List.nil_append, runsAux_cons_false hsep]
    cases acc with
    | nil => simp [runsAux]
    | cons a as => simp [runsAux, List.isEmpty]
  | cons c cs ih =>
    rw [List.cons_append]
    cases hp : p c with
    | true => rw [runsAux_cons_true hp, runsAux_cons_true hp, ih]
    | false =>
      rw [runsAux_cons_false hp, runsAux_cons_false hp]
      cases acc with
      | nil => simp [ih]
      | cons a as => simp [List.isEmpty, ih]

theorem tokenize_append_space (a b : String) :
    tokenize (a ++ " " ++ b) = tokenize a ++ tokenize b := by
  show ((wordRuns ((a ++ " " ++ b).data.map asciiLowerChar)).map fun cs => String.mk cs) =
    ((wordRuns (a.data.map asciiLowerChar)).map fun cs => String.mk cs) ++
      ((wordRuns (b.data.map asciiLowerChar)).map fun cs => String.mk cs)
  have hdata : (a ++ " " ++ b).data = a.data ++ ' ' :: b.data := by
    have h1 : (a ++ " " ++ b).data = a.data ++ [' '] ++ b.data := rfl
    rw [h1, List.append_assoc, List.singleton_append]
  rw [hdata, List.map_append, List.map_cons]
  have hsp : asciiLowerChar ' ' = ' ' := by decide
  rw [hsp, wordRuns, runsAux_append_sep isWordChar ' ' (by decide), List.map_append]
  rfl

/-!
## Index construction characterization
-/

theorem addTo_mem (idx : String → Finset Nat) (w : String) (i : Nat)
    (t : String) (j : Nat) :
    j ∈ addTo idx w i t ↔ j ∈ idx t ∨ (j = i ∧ t = w) := by
  unfold addTo
  by_cases h : t = w
  · subst h
    simp [Finset.mem_insert]
    tauto
  · simp [h]

theorem addWords_mem (ws : List String) (idx : String → Finset Nat) (i : Nat)
    (t : String) (j : Nat) :
    j ∈ addWords idx i ws t ↔ j ∈ idx t ∨ (j = i ∧ t ∈ ws) := by
  induction ws generalizing idx with
  | nil => simp [addWords]
  | cons w ws ih =>
    show j ∈ addWords (addTo idx w i) i ws t ↔ _
    rw [ih, addTo_mem]
    simp [List.mem_cons]
    tauto

theorem addLines_mem (lines : List String) (idx : String → Finset Nat) (i : Nat)
    (t : String) (j : Nat) :
    j ∈ addLines idx i lines t ↔ j ∈ idx t ∨ (j = i ∧ ∃ l ∈ lines, t ∈ tokenize l) := by
  induction lines generalizing idx with
  | nil => simp [addLines]
  | cons l ls ih =>
    rw [addLines, ih, addWords_mem]
    simp [List.mem_cons]
    tauto

theorem addOtherFields_mem (fts : List String) (idx : String → Finset Nat) (i : Nat)
    (t : String) (j : Nat) :
    j ∈ addOtherFields idx i fts t ↔ j ∈ idx t ∨ (j = i ∧ ∃ f ∈ fts, t ∈ tokenize f) := by
  induction fts generalizing idx with
  | nil => simp [addOtherFields]
  | cons f fs ih =>
    rw [addOtherFields]
    by_cases hf : f = ""
    · rw [if_pos hf, ih]
      subst hf
      have hnil : tokenize "" = [] := rfl
      simp [hnil]
    · rw [if_neg hf, ih, addWords_mem]
      simp [List.mem_cons]
      tauto

theorem buildFrom_mem
    (proj : Indices → (String → Finset Nat)) (T : String → Recipe → Prop)
    (hstep : ∀ acc i r t j,
      j ∈ proj (indexRecipe acc i r) t ↔ j ∈ proj acc t ∨ (j = i ∧ T t r))
    (rs : List Recipe) (acc : Indices) (i : Nat) (t : String) (j : Nat) :
    j ∈ proj (buildFrom acc i rs) t ↔
      j ∈ proj acc t ∨ ∃ k r, rs.get? k = some r ∧ j = i + k ∧ T t r := by
  induction rs generalizing acc i with
  | nil => simp [buildFrom]
  | cons r rs ih =>
    rw [buildFrom, ih, hstep, or_assoc]
    apply or_congr_right
    constructor
    · rintro (⟨hj, hT⟩ | ⟨k, r', hget, hj, hT⟩)
      · exact ⟨0, r, by simp, by omega, hT⟩
      · exact ⟨k + 1, r', by simpa using hget, by omega, hT⟩
    · rintro ⟨k, r', hget, hj, hT⟩
      cases k with
      | zero =>
        left
        obtain rfl : r = r' := by simpa using hget
        exact ⟨by omega, hT⟩
      | succ k =>
        right
        exact ⟨k, r', by simpa using hget, by omega, hT⟩

theorem mem_titleIndex (rs : List Recipe) (t : String) (j : Nat) :
    j ∈ (build_search_indices rs).titleIndex t ↔
      ∃ r, rs.get? j = some r ∧ t ∈ tokenize r.title := by
  rw [build_search_indices,
    buildFrom_mem Indices.titleIndex (fun t r => t ∈ tokenize r.title)
      (fun acc i r t j => by
        show j ∈ addWords acc.titleIndex i (tokenize r.title) t ↔ _
        rw [addWords_mem])]
  constructor
  · rintro (h | ⟨k, r, hget, hj, hT⟩)
    · simp [emptyIndices] at h
    · exact ⟨r, by simpa [hj] using hget, hT⟩
  · rintro ⟨r, hget, hT⟩
    exact Or.inr ⟨j, r, hget, by omega, hT⟩

theorem mem_ingredientIndex (rs : List Recipe) (t : String) (j : Nat) :
    j ∈ (build_search_indices rs).ingredientIndex t ↔
      ∃ r, rs.get? j = some r ∧ ∃ l ∈ r.ingredients, t ∈ tokenize l := by
  rw [build_search_indices,
    buildFrom_mem Indices.ingredientIndex
      (fun t r => ∃ l ∈ r.ingredients, t ∈ tokenize l)
      (fun acc i r t j => by
        show j ∈ addLines acc.ingredientIndex i r.ingredients t ↔ _
        rw [addLines_mem])]
  constructor
  · rintro (h | ⟨k, r, hget, hj, hT⟩)
    · simp [emptyIndices] at h
    · exact ⟨r, by simpa [hj] using hget, hT⟩
  · rintro ⟨r, hget, hT⟩
    exact Or.inr ⟨j, r, hget, by omega, hT⟩

theorem mem_instructionIndex (rs : List Recipe) (t : String) (j : Nat) :
    j ∈ (build_search_indices rs).instructionIndex t ↔
      ∃ r, rs.get? j = some r ∧ ∃ l ∈ r.instructions, t ∈ tokenize l := by
  rw [build_search_indices,
    buildFrom_mem Indices.instructionIndex
      (fun t r => ∃ l ∈ r.instructions, t ∈ tokenize l)
      (fun acc i r t j => by
        show j ∈ addLines acc.instructionIndex i r.instructions t ↔ _
        rw [addLines_mem])]
  constructor
  · rintro (h | ⟨k, r, hget, hj, hT⟩)
    · simp [emptyIndices] at h
    · exact ⟨r, by simpa [hj] using hget, hT⟩
  · rintro ⟨r, hget, hT⟩
    exact Or.inr ⟨j, r, hget, by omega, hT⟩

theorem mem_keywordIndex (rs : List Recipe) (t : String) (j : Nat) :
    j ∈ (build_search_indices rs).keywordIndex t ↔
      ∃ r, rs.get? j = some r ∧ keywordMem t r := by
  rw [build_search_indices,
    buildFrom_mem Indices.keywordIndex keywordMem
      (fun acc i r t j => by
        show j ∈ addOtherFields
          (addLines (addLines acc.keywordIndex i r.ingredients) i r.instructions)
          i [r.description, r.category, r.cuisine, r.author] t ↔ _
        rw [addOtherFields_mem, addLines_mem, addLines_mem]
        have hlist :
            (∃ f ∈ [r.description, r.category, r.cuisine, r.author],
              t ∈ tokenize f) ↔
            (t ∈ tokenize r.description ∨ t ∈ tokenize r.category ∨
              t ∈ tokenize r.cuisine ∨ t ∈ tokenize r.author) := by
          simp
        rw [hlist]
        unfold keywordMem
        generalize (∃ l ∈ r.ingredients, t ∈ tokenize l) = A
        generalize (∃ l ∈ r.instructions, t ∈ tokenize l) = B
        tauto)]
  constructor
  · rintro (h | ⟨k, r, hget, hj, hT⟩)
    · simp [emptyIndices] at h
    · exact ⟨r, by simpa [hj] using hget, hT⟩
  · rintro ⟨r, hget, hT⟩
    exact Or.inr ⟨j, r, hget, by omega, hT⟩

/-!
## Intersection-search lemmas
-/

theorem foldl_inter_mem (idx : String → Finset Nat) (ws : List String)
    (s0 : Finset Nat) (j : Nat) :
    j ∈ ws.foldl (fun s w => s ∩ idx w) s0 ↔ j ∈ s0 ∧ ∀ w ∈ ws, j ∈ idx w := by
  induction ws generalizing s0 with
  | nil => simp
  | cons w ws ih =>
    rw [List.foldl_cons, ih, Finset.mem_inter]
    simp [List.forall_mem_cons]
    tauto

theorem searchLoop_from_some (idx : String → Finset Nat) (ws : List String)
    (s : Finset Nat) :
    ws.foldl
      (fun m w =>
        match m with
        | none => some (idx w)
        | some s => some (s ∩ idx w))
      (some s) = some (ws.foldl (fun s w => s ∩ idx w) s) := by
  induction ws generalizing s with
  | nil => rfl
  | cons w ws ih => exact ih (s ∩ idx w)

theorem searchLoop_cons (idx : String → Finset Nat) (w : String) (ws : List String) :
    searchLoop idx (w :: ws) = some (ws.foldl (fun s w' => s ∩ idx w') (idx w)) := by
  show List.foldl _ (some (idx w)) ws = _
  exact searchLoop_from_some idx ws (idx w)

theorem searchLoop_match_mem (idx : String → Finset Nat) (ws : List String)
    (h : ws ≠ []) (j : Nat) :
    (j ∈ (match searchLoop idx ws with | none => (∅ : Finset Nat) | some s => s)) ↔
      ∀ w ∈ ws, j ∈ idx w := by
  obtain ⟨w, ws', rfl⟩ := List.exists_cons_of_ne_nil h
  rw [searchLoop_cons]
  show j ∈ ws'.foldl (fun s w' => s ∩ idx w') (idx w) ↔ _
  rw [foldl_inter_mem]
  simp [List.forall_mem_cons]

theorem mem_searchByTitleIds (rs : List Recipe) (q : String)
    (h : tokenize q ≠ []) (j : Nat) :
    j ∈ searchByTitleIds rs q ↔
      ∀ w ∈ tokenize q, j ∈ (build_search_indices rs).titleIndex w := by
  unfold searchByTitleIds
  exact searchLoop_match_mem _ _ h j

theorem mem_searchByIngredientIds (rs : List Recipe) (q : String)
    (h : tokenize q ≠ []) (j : Nat) :
    j ∈ searchByIngredientIds rs q ↔
      ∀ w ∈ tokenize q, j ∈ (build_search_indices rs).ingredientIndex w := by
  unfold searchByIngredientIds
  exact searchLoop_match_mem _ _ h j

theorem mem_searchByCookingMethodIds (rs : List Recipe) (q : String)
    (h : tokenize q ≠ []) (j : Nat) :
    j ∈ searchByCookingMethodIds rs q ↔
      ∀ w ∈ tokenize q,
        j ∈ (build_search_indices rs).titleIndex w ∨
          j ∈ (build_search_indices rs).instructionIndex w := by
  unfold searchByCookingMethodIds
  rw [searchLoop_match_mem _ _ h j]
  unfold methodWordIds
  simp [Finset.mem_union]

/-!
## General-search scoring lemmas
-/

theorem mem_sortedIds (s : Finset Nat) (j : Nat) : j ∈ sortedIds s ↔ j ∈ s := by
  rcases s with ⟨m, hn⟩
  induction m using Quotient.inductionOn with
  | _ l =>
    show j ∈ l.insertionSort (· ≤ ·) ↔ _
    rw [List.mem_insertionSort]
    simp [Finset.mem_mk, Multiset.quot_mk_to_coe, Multiset.mem_coe]

theorem sortedIds_nodup (s : Finset Nat) : (sortedIds s).Nodup := by
  rcases s with ⟨m, hn⟩
  induction m using Quotient.inductionOn with
  | _ l =>
    show (l.insertionSort (· ≤ ·)).Nodup
    rw [(List.perm_insertionSort _ l).nodup_iff]
    exact Multiset.coe_nodup.mp hn

theorem scoreOf_cons (p : Nat × Nat) (sc : List (Nat × Nat)) (j : Nat) :
    scoreOf (p :: sc) j = (if p.1 = j then p.2 else 0) + scoreOf sc j := by
  unfold scoreOf
  rw [List.filter_cons]
  by_cases h : p.1 = j
  · rw [if_pos (by simpa using h), if_pos h]
    simp
  · rw [if_neg (by simpa using h), if_neg h]
    simp

theorem scoreOf_append (sc₁ sc₂ : List (Nat × Nat)) (j : Nat) :
    scoreOf (sc₁ ++ sc₂) j = scoreOf sc₁ j + scoreOf sc₂ j := by
  unfold scoreOf
  rw [List.filter_append, List.map_append, List.sum_append]

theorem scoreOf_eq_zero_of_not_key (sc : List (Nat × Nat)) (j : Nat)
    (h : j ∉ sc.map Prod.fst) : scoreOf sc j = 0 := by
  induction sc with
  | nil => rfl
  | cons p sc ih =>
    rw [scoreOf_cons, if_neg (by simp at h; tauto), ih (by simp at h ⊢; tauto)]

theorem bump_map_fst (sc : List (Nat × Nat)) (i : Nat) :
    ((sc.map fun p => if p.1 = i then (p.1, p.2 + 1) else p).map Prod.fst) =
      sc.map Prod.fst := by
  rw [List.map_map]
  refine List.map_congr_left fun p _ => ?_
  by_cases h : p.1 = i <;> simp [h]

theorem scoreOf_bump_of_any (sc : List (Nat × Nat))
    (hnd : (sc.map Prod.fst).Nodup) (i j : Nat)
    (hany : sc.any (fun p => p.1 = i) = true) :
    scoreOf (sc.map fun p => if p.1 = i then (p.1, p.2 + 1) else p) j =
      scoreOf sc j + if j = i then 1 else 0 := by
  induction sc with
  | nil => simp at hany
  | cons p sc ih =>
    rw [List.map_cons, scoreOf_cons, scoreOf_cons]
    by_cases hp : p.1 = i
    · have hrest : i ∉ sc.map Prod.fst := by
        rw [List.map_cons] at hnd
        rw [← hp]
        exact (List.nodup_cons.mp hnd).1
      have hmap : (sc.map fun p => if p.1 = i then (p.1, p.2 + 1) else p) = sc := by
        conv_rhs => rw [← List.map_id sc]
        refine List.map_congr_left fun q hq => ?_
        show (if q.1 = i then (q.1, q.2 + 1) else q) = q
        rw [if_neg]
        intro hqi
        exact hrest (hqi ▸ List.mem_map_of_mem Prod.fst hq)
      rw [if_pos hp, hmap]
      by_cases hj : j = i
      · rw [if_pos hj]
        have hpj : p.1 = j := by omega
        show (if p.1 = j then p.2 + 1 else 0) + scoreOf sc j =
          (if p.1 = j then p.2 else 0) + scoreOf sc j + 1
        rw [if_pos hpj, if_pos hpj]
        omega
      · rw [if_neg hj]
        have hpj : ¬p.1 = j := by omega
        show (if p.1 = j then p.2 + 1 else 0) + scoreOf sc j =
          (if p.1 = j then p.2 else 0) + scoreOf sc j + 0
        rw [if_neg hpj, if_neg hpj]
        omega
    · rw [if_neg hp]
      have hany' : sc.any (fun p => p.1 = i) = true := by
        simp at hany ⊢
        rcases hany with h | h
        · exact absurd h hp
        · exact h
      have hnd' : (sc.map Prod.fst).Nodup := by
        rw [List.map_cons] at hnd
        exact (List.nodup_cons.mp hnd).2
      rw [ih hnd' hany']
      omega

theorem bump_scoreOf (sc : List (Nat × Nat)) (hnd : (sc.map Prod.fst).Nodup)
    (i j : Nat) :
    scoreOf (bump sc i) j = scoreOf sc j + if j = i then 1 else 0 := by
  unfold bump
  cases hany : sc.any (fun p => p.1 = i) with
  | true =>
    rw [if_pos rfl]
    exact scoreOf_bump_of_any sc hnd i j hany
  | false =>
    rw [if_neg (by simp)]
    rw [scoreOf_append, scoreOf_cons]
    show scoreOf sc j + ((if i = j then 1 else 0) + scoreOf [] j) = _
    have : scoreOf ([] : List (Nat × Nat)) j = 0 := rfl
    rw [this]
    by_cases hj : j = i
    · rw [if_pos hj, if_pos (by omega)]
    · rw [if_neg hj, if_neg (by omega)]

theorem bump_wf (sc : List (Nat × Nat)) (hwf : ScoresWF sc) (i : Nat) :
    ScoresWF (bump sc i) := by
  obtain ⟨hnd, hpos⟩ := hwf
  unfold bump
  cases hany : sc.any (fun p => p.1 = i) with
  | true =>
    rw [if_pos rfl]
    constructor
    · rw [bump_map_fst]
      exact hnd
    · intro p hp
      rw [List.mem_map] at hp
      obtain ⟨q, hq, rfl⟩ := hp
      by_cases h : q.1 = i
      · rw [if_pos h]
        show 0 < q.2 + 1
        omega
      · rw [if_neg h]
        exact hpos q hq
  | false =>
    rw [if_neg (by simp)]
    constructor
    · rw [List.map_append, List.nodup_append]
      refine ⟨hnd, by simp, ?_⟩
      intro x hx
      simp only [List.map_cons, List.map_nil, List.mem_singleton]
      intro hxi
      subst hxi
      simp at hx hany
      obtain ⟨b, hb⟩ := hx
      exact absurd (hany x b hb) (by simp)
    · intro p hp
      rw [List.mem_append] at hp
      rcases hp with h | h
      · exact hpos p h
      · simp at h
        subst h
        omega

theorem mem_scores_iff (sc : List (Nat × Nat)) (hwf : ScoresWF sc)
    (i s : Nat) : (i, s) ∈ sc ↔ scoreOf sc i = s ∧ 0 < s := by
  obtain ⟨hnd, hpos⟩ := hwf
  induction sc with
  | nil =>
    simp [scoreOf]
    omega
  | cons p sc ih =>
    rw [List.map_cons, List.nodup_cons] at hnd
    obtain ⟨hp1, hnd'⟩ := hnd
    have ih' := ih hnd' fun q hq => hpos q (List.mem_cons_of_mem p hq)
    rw [List.mem_cons, scoreOf_cons]
    constructor
    · rintro (h | h)
      · have hps : p = (i, s) := h.symm
        subst hps
        rw [if_pos rfl]
        have hz : scoreOf sc i = 0 := by
          refine scoreOf_eq_zero_of_not_key sc i ?_
          simpa using hp1
        rw [hz]
        exact ⟨by omega, hpos (i, s) (List.mem_cons_self _ _)⟩
      · obtain ⟨hsc, hspos⟩ := ih'.mp h
        have hpi : ¬p.1 = i := by
          intro hpi
          apply hp1
          have : i ∈ sc.map Prod.fst := List.mem_map_of_mem Prod.fst h
          simpa [hpi] using this
        rw [if_neg hpi, hsc]
        exact ⟨by omega, hspos⟩
    · rintro ⟨hsum, hspos⟩
      by_cases hpi : p.1 = i
      · left
        have hz : scoreOf sc i = 0 := by
          refine scoreOf_eq_zero_of_not_key sc i ?_
          rw [← hpi]
          exact hp1
        rw [if_pos hpi, hz] at hsum
        have hps : p.2 = s := by omega
        rw [← hpi, ← hps]
      · right
        rw [if_neg hpi] at hsum
        exact ih'.mpr ⟨by omega, hspos⟩

theorem foldl_bump_spec (L : List Nat) (hL : L.Nodup) (sc : List (Nat × Nat))
    (hwf : ScoresWF sc) :
    ScoresWF (L.foldl bump sc) ∧
      ∀ j, scoreOf (L.foldl bump sc) j =
        scoreOf sc j + if j ∈ L then 1 else 0 := by
  induction L generalizing sc with
  | nil => simp [hwf]
  | cons a L ih =>
    rw [List.nodup_cons] at hL
    obtain ⟨ha, hL'⟩ := hL
    rw [List.foldl_cons]
    obtain ⟨hwf', hsc⟩ := ih hL' (bump sc a) (bump_wf sc hwf a)
    refine ⟨hwf', fun j => ?_⟩
    rw [hsc j, bump_scoreOf sc hwf.1 a j]
    by_cases hj : j = a
    · subst hj
      simp [ha]
    · by_cases hjL : j ∈ L
      · simp [hj, hjL]
      · simp [hj, hjL]

theorem accumScores_aux (kidx : String → Finset Nat) (ws : List String)
    (sc : List (Nat × Nat)) (hwf : ScoresWF sc) :
    ScoresWF (ws.foldl (fun sc w => (sortedIds (kidx w)).foldl bump sc) sc) ∧
      ∀ j, scoreOf (ws.foldl (fun sc w => (sortedIds (kidx w)).foldl bump sc) sc) j =
        scoreOf sc j + matchCount kidx ws j := by
  induction ws generalizing sc with
  | nil => simp [hwf, matchCount]
  | cons w ws ih =>
    rw [List.foldl_cons]
    have hstep := foldl_bump_spec (sortedIds (kidx w)) (sortedIds_nodup _) sc hwf
    obtain ⟨hwf', hone⟩ := hstep
    obtain ⟨hwf'', hrest⟩ := ih _ hwf'
    refine ⟨hwf'', fun j => ?_⟩
    rw [hrest j, hone j]
    have hcnt : matchCount kidx (w :: ws) j =
        (if j ∈ kidx w then 1 else 0) + matchCount kidx ws j := by
      unfold matchCount
      rw [List.countP_cons]
      by_cases hj : j ∈ kidx w
      · rw [if_pos (by simpa using hj), if_pos hj]
        omega
      · rw [if_neg (by simpa using hj), if_neg hj]
        omega
    rw [hcnt]
    by_cases hj : j ∈ kidx w
    · rw [if_pos ((mem_sortedIds _ j).mpr hj), if_pos hj]
      omega
    · rw [if_neg (fun h => hj ((mem_sortedIds _ j).mp h)), if_neg hj]
      omega

theorem accumScores_spec (kidx : String → Finset Nat) (ws : List String) :
    ScoresWF (accumScores kidx ws) ∧
      ∀ j, scoreOf (accumScores kidx ws) j = matchCount kidx ws j := by
  have h := accumScores_aux kidx ws [] ⟨List.nodup_nil, by simp⟩
  unfold accumScores
  refine ⟨h.1, fun j => ?_⟩
  rw [h.2 j]
  have : scoreOf [] j = 0 := rfl
  rw [this]
  omega

theorem insertDesc_perm (x : Nat × Nat) (l : List (Nat × Nat)) :
    List.Perm (insertDesc x l) (x :: l) := by
  induction l with
  | nil => rfl
  | cons y ys ih =>
    rw [insertDesc]
    by_cases h : x.2 ≤ y.2
    · rw [if_pos h]
      exact (ih.cons y).trans (List.Perm.swap x y ys)
    · rw [if_neg h]

theorem insertDesc_sorted (x : Nat × Nat) (l : List (Nat × Nat))
    (h : l.Sorted fun a b => b.2 ≤ a.2) :
    (insertDesc x l).Sorted fun a b => b.2 ≤ a.2 := by
  induction l with
  | nil => simp [insertDesc]
  | cons y ys ih =>
    rw [insertDesc]
    rw [List.sorted_cons] at h
    obtain ⟨hy, hys⟩ := h
    by_cases hxy : x.2 ≤ y.2
    · rw [if_pos hxy]
      rw [List.sorted_cons]
      refine ⟨fun z hz => ?_, ih hys⟩
      rcases List.mem_cons.mp ((insertDesc_perm x ys).mem_iff.mp hz) with hzx | hzys
      · rw [hzx]
        exact hxy
      · exact hy z hzys
    · rw [if_neg hxy]
      rw [List.sorted_cons]
      refine ⟨fun z hz => ?_, by rw [List.sorted_cons]; exact ⟨hy, hys⟩⟩
      rcases List.mem_cons.mp hz with hzy | hzys
      · rw [hzy]
        omega
      · have := hy z hzys
        omega

theorem sortDesc_perm_aux (l acc : List (Nat × Nat)) :
    List.Perm (l.foldl (fun acc x => insertDesc x acc) acc) (acc ++ l) := by
  induction l generalizing acc with
  | nil => simp
  | cons x xs ih =>
    rw [List.foldl_cons]
    refine (ih (insertDesc x acc)).trans ?_
    refine (((insertDesc_perm x acc).append_right xs).trans ?_)
    exact List.perm_middle.symm

theorem sortDesc_perm (l : List (Nat × Nat)) : List.Perm (sortDesc l) l := by
  have h := sortDesc_perm_aux l []
  simpa [sortDesc] using h

theorem sortDesc_sorted_aux (l acc : List (Nat × Nat))
    (hacc : acc.Sorted fun a b => b.2 ≤ a.2) :
    (l.foldl (fun acc x => insertDesc x acc) acc).Sorted fun a b => b.2 ≤ a.2 := by
  induction l generalizing acc with
  | nil => exact hacc
  | cons x xs ih =>
    rw [List.foldl_cons]
    exact ih _ (insertDesc_sorted x acc hacc)

theorem sortDesc_sorted (l : List (Nat × Nat)) :
    (sortDesc l).Sorted fun a b => b.2 ≤ a.2 :=
  sortDesc_sorted_aux l [] (by simp)

theorem mem_searchGeneralIdsWith (kidx : String → Finset Nat) (q : String)
    (j s : Nat) :
    (j, s) ∈ searchGeneralIdsWith kidx q ↔
      matchCount kidx (tokenize q) j = s ∧ 0 < s := by
  unfold searchGeneralIdsWith
  by_cases h : tokenize q = []
  · rw [if_pos h, h]
    show (j, s) ∈ ([] : List (Nat × Nat)) ↔ _
    have hzero : matchCount kidx [] j = 0 := rfl
    rw [hzero]
    simp
    omega
  · rw [if_neg h]
    rw [(sortDesc_perm _).mem_iff]
    obtain ⟨hwf, hscore⟩ := accumScores_spec kidx (tokenize q)
    rw [mem_scores_iff _ hwf j s, hscore j]

theorem searchGeneralIdsWith_sorted (kidx : String → Finset Nat) (q : String) :
    (searchGeneralIdsWith kidx q).Sorted fun a b => b.2 ≤ a.2 := by
  unfold searchGeneralIdsWith
  by_cases h : tokenize q = []
  · rw [if_pos h]
    simp
  · rw [if_neg h]
    exact sortDesc_sorted _

theorem mem_searchGeneralIds (rs : List Recipe) (q : String) (j s : Nat) :
    (j, s) ∈ searchGeneralIds rs q ↔
      matchCount (build_search_indices rs).keywordIndex (tokenize q) j = s ∧
        0 < s :=
  mem_searchGeneralIdsWith _ q j s

theorem matchCount_pos_iff (kidx : String → Finset Nat) (ws : List String)
    (j : Nat) : 0 < matchCount kidx ws j ↔ ∃ w ∈ ws, j ∈ kidx w := by
  unfold matchCount
  rw [List.countP_pos_iff]
  simp

/-!
## Record-level and dietary-search lemmas
-/

theorem countP_ext {α : Type} (p q : α → Bool) (l : List α)
    (h : ∀ a ∈ l, p a = q a) : l.countP p = l.countP q := by
  induction l with
  | nil => rfl
  | cons a l ih =>
    rw [List.countP_cons, List.countP_cons, h a (List.mem_cons_self a l),
      ih fun b hb => h b (List.mem_cons_of_mem a hb)]

theorem mem_search_general (rs : List Recipe) (q : String) (r : ScoredRecipe) :
    r ∈ search_general rs q ↔
      ∃ j s, (j, s) ∈ searchGeneralIds rs q ∧
        r = ⟨rs.getD j default, s⟩ := by
  unfold search_general
  rw [List.mem_map]
  constructor
  · rintro ⟨⟨j, s⟩, hmem, rfl⟩
    exact ⟨j, s, hmem, rfl⟩
  · rintro ⟨j, s, hmem, rfl⟩
    exact ⟨(j, s), hmem, rfl⟩

theorem searchGeneralIds_lt_length (rs : List Recipe) (q : String) (j s : Nat)
    (h : (j, s) ∈ searchGeneralIds rs q) : j < rs.length := by
  rw [mem_searchGeneralIds] at h
  obtain ⟨hc, hpos⟩ := h
  rw [← hc] at hpos
  obtain ⟨w, _, hw⟩ := (matchCount_pos_iff _ _ _).mp hpos
  obtain ⟨r, hget, _⟩ := (mem_keywordIndex rs w j).mp hw
  exact List.get?_eq_some.mp hget |>.1

theorem matchCount_congr_of_eq (rs : List Recipe) (ws : List String)
    (j j' : Nat) (r r' : Recipe) (hj : rs.get? j = some r)
    (hj' : rs.get? j' = some r') (hrr : r = r') :
    matchCount (build_search_indices rs).keywordIndex ws j =
      matchCount (build_search_indices rs).keywordIndex ws j' := by
  subst hrr
  refine countP_ext _ _ ws fun w _ => ?_
  have hiff : j ∈ (build_search_indices rs).keywordIndex w ↔
      j' ∈ (build_search_indices rs).keywordIndex w := by
    rw [mem_keywordIndex, mem_keywordIndex]
    constructor
    · rintro ⟨rr, hget, hmem⟩
      rw [hget] at hj
      exact ⟨r, hj', (Option.some_injective _ hj) ▸ hmem⟩
    · rintro ⟨rr, hget, hmem⟩
      rw [hget] at hj'
      exact ⟨r, hj, (Option.some_injective _ hj') ▸ hmem⟩
  simp [hiff]

theorem dedupFirst_aux {α : Type} [DecidableEq α] (l acc : List α)
    (hacc : acc.Nodup) :
    (l.foldl (fun m x => if x ∈ m then m else m ++ [x]) acc).Nodup ∧
      ∀ y, y ∈ l.foldl (fun m x => if x ∈ m then m else m ++ [x]) acc ↔
        y ∈ acc ∨ y ∈ l := by
  induction l generalizing acc with
  | nil => simp [hacc]
  | cons x xs ih =>
    rw [List.foldl_cons]
    by_cases hx : x ∈ acc
    · rw [if_pos hx]
      obtain ⟨hnd, hmem⟩ := ih acc hacc
      refine ⟨hnd, fun y => ?_⟩
      rw [hmem y, List.mem_cons]
      constructor
      · rintro (h | h)
        · exact Or.inl h
        · exact Or.inr (Or.inr h)
      · rintro (h | h | h)
        · exact Or.inl h
        · exact Or.inl (h ▸ hx)
        · exact Or.inr h
    · rw [if_neg hx]
      have hnd' : (acc ++ [x]).Nodup := by
        rw [List.nodup_append]
        exact ⟨hacc, List.nodup_singleton x, by simpa using hx⟩
      obtain ⟨hnd, hmem⟩ := ih (acc ++ [x]) hnd'
      refine ⟨hnd, fun y => ?_⟩
      rw [hmem y, List.mem_append, List.mem_singleton, List.mem_cons]
      tauto

theorem dedupFirst_nodup {α : Type} [DecidableEq α] (l : List α) :
    (dedupFirst l).Nodup :=
  (dedupFirst_aux l [] List.nodup_nil).1

theorem mem_dedupFirst {α : Type} [DecidableEq α] (l : List α) (y : α) :
    y ∈ dedupFirst l ↔ y ∈ l := by
  rw [dedupFirst, (dedupFirst_aux l [] List.nodup_nil).2 y]
  simp

theorem dietary_eq_dedupFirst (rs : List Recipe) (c : String) :
    search_by_dietary_needs rs c =
      dedupFirst (((dietaryTerms c).map fun k => search_general rs k).flatten) := by
  rw [search_by_dietary_needs, dedupFirst, List.foldl_flatten]
  rw [List.foldl_map]

theorem score_one_of_single_token (rs : List Recipe) (k t : String)
    (hk : tokenize k = [t]) (j s : Nat)
    (h : (j, s) ∈ searchGeneralIds rs k) : s = 1 := by
  rw [mem_searchGeneralIds, hk] at h
  obtain ⟨hc, hpos⟩ := h
  unfold matchCount at hc
  rw [List.countP_cons, List.countP_nil] at hc
  by_cases hj : j ∈ (build_search_indices rs).keywordIndex t
  · rw [if_pos (by simpa using hj)] at hc
    omega
  · rw [if_neg (by simpa using hj)] at hc
    omega

theorem dietaryKeywords_tokens_ne_nil :
    ∀ p ∈ dietaryKeywords, tokenizeLowered p.1 ≠ [] := by decide

theorem dietaryKeywords_single_token :
    ∀ p ∈ dietaryKeywords, ∀ k ∈ p.2, tokenize k = [k] := by decide

theorem tokenize_eq_tokenizeLowered (s : String) :
    tokenize s = tokenizeLowered (pyLower s) := rfl

theorem dietaryTerms_of_untokenizable (c : String) (h : tokenize c = []) :
    dietaryTerms c = [c] := by
  unfold dietaryTerms
  cases hfind : dietaryKeywords.find? (fun p => p.1 = pyLower c) with
  | none => rfl
  | some p =>
    exfalso
    have hp := List.mem_of_find?_eq_some hfind
    have hpred := List.find?_some hfind
    have hp1 : p.1 = pyLower c := by simpa using hpred
    apply dietaryKeywords_tokens_ne_nil p hp
    rw [hp1, ← tokenize_eq_tokenizeLowered, h]

theorem search_general_pyLower (rs : List Recipe) (c : String) :
    search_general rs (pyLower c) = search_general rs c := by
  unfold search_general searchGeneralIds searchGeneralIdsWith
  rw [tokenize_pyLower]

/-!
## JSON-level builder refinement
-/

theorem addLinesJ_ok (items : List JVal)
    (h : ∀ v ∈ items, ∃ s, v = JVal.jstr s)
    (ded kw : String → Finset Nat) (i : Nat) :
    addLinesJ ded kw i items =
      .ok (addLines ded i (items.map jStrD), addLines kw i (items.map jStrD)) := by
  induction items generalizing ded kw with
  | nil => rfl
  | cons v rest ih =>
    obtain ⟨s, rfl⟩ := h v (List.mem_cons_self v rest)
    show addLinesJ (addWords ded i (tokenizeLowered (pyLower s)))
      (addWords kw i (tokenizeLowered (pyLower s))) i rest = _
    rw [ih fun v hv => h v (List.mem_cons_of_mem _ hv)]
    rfl

theorem addOtherJ_ok (vs : List JVal) (h : ∀ v ∈ vs, optOk v = true)
    (kw : String → Finset Nat) (i : Nat) :
    addOtherJ kw i vs = .ok (addOtherFields kw i (vs.map jStrD)) := by
  induction vs generalizing kw with
  | nil => rfl
  | cons v rest ih =>
    have hv := h v (List.mem_cons_self v rest)
    have hrest := fun v hv => h v (List.mem_cons_of_mem _ hv)
    cases v with
    | absent =>
      show addOtherJ kw i rest = _
      rw [ih hrest]
      rfl
    | jnull =>
      show addOtherJ kw i rest = _
      rw [ih hrest]
      rfl
    | jstr s =>
      by_cases hs : s = ""
      · subst hs
        show addOtherJ kw i rest = _
        rw [ih hrest]
        rfl
      · rw [addOtherJ]
        rw [if_pos (by simpa [jGet, jTruthy] using hs)]
        show addOtherJ (addWords kw i (tokenizeLowered (pyLower s))) i rest = _
        rw [ih hrest]
        show _ = Except.ok (addOtherFields kw i (jStrD (JVal.jstr s) :: rest.map jStrD))
        rw [addOtherFields]
        rw [if_neg (by simpa [jStrD] using hs)]
        rfl
    | jlist xs => simp [optOk] at hv

theorem indexRecipeJ_ok (acc : Indices) (i : Nat) (r : RecipeJson)
    (h : wellShaped r = true) :
    indexRecipeJ acc i r = .ok (indexRecipe acc i (toRecipe r)) := by
  unfold wellShaped at h
  simp only [Bool.and_eq_true] at h
  obtain ⟨⟨⟨⟨⟨⟨h1, h2⟩, h3⟩, h4⟩, h5⟩, h6⟩, h7⟩ := h
  have hscalar : ∀ v : JVal, scalarOk v = true →
      jLower (jGet v (.jstr "")) = .ok (pyLower (jStrD v)) := by
    intro v hv
    cases v with
    | absent => rfl
    | jnull => simp [scalarOk] at hv
    | jstr s => rfl
    | jlist xs => simp [scalarOk] at hv
  have ht := hscalar r.title h1
  have hlines : ∀ (v : JVal), linesOk v = true →
      ∃ items, jIter (jGet v (.jlist [])) = .ok items ∧
        (∀ x ∈ items, ∃ s, x = JVal.jstr s) ∧ items.map jStrD = jLinesD v := by
    intro v hv
    cases v with
    | absent => exact ⟨[], rfl, by simp, rfl⟩
    | jnull => simp [linesOk] at hv
    | jstr s => simp [linesOk] at hv
    | jlist xs =>
      refine ⟨xs, rfl, ?_, rfl⟩
      intro x hx
      have := (List.all_eq_true.mp hv) x hx
      cases x with
      | absent => simp at this
      | jnull => simp at this
      | jstr s => exact ⟨s, rfl⟩
      | jlist ys => simp at this
  obtain ⟨ings, hi1, hi2, hi3⟩ := hlines r.ingredients h2
  obtain ⟨insts, hn1, hn2, hn3⟩ := hlines r.instructions h3
  unfold indexRecipeJ
  rw [ht]
  show (do
    let ings ← jIter (jGet r.ingredients (.jlist []))
    let ingPair ← addLinesJ acc.ingredientIndex acc.keywordIndex i ings
    let insts ← jIter (jGet r.instructions (.jlist []))
    let insPair ← addLinesJ acc.instructionIndex ingPair.2 i insts
    let kw ← addOtherJ insPair.2 i [r.description, r.category, r.cuisine, r.author]
    pure ⟨addWords acc.titleIndex i (tokenizeLowered (pyLower (jStrD r.title))),
      ingPair.1, insPair.1, kw⟩ : Except String Indices) = _
  rw [hi1]
  show (do
    let ingPair ← addLinesJ acc.ingredientIndex acc.keywordIndex i ings
    let insts ← jIter (jGet r.instructions (.jlist []))
    let insPair ← addLinesJ acc.instructionIndex ingPair.2 i insts
    let kw ← addOtherJ insPair.2 i [r.description, r.category, r.cuisine, r.author]
    pure ⟨addWords acc.titleIndex i (tokenizeLowered (pyLower (jStrD r.title))),
      ingPair.1, insPair.1, kw⟩ : Except String Indices) = _
  rw [addLinesJ_ok ings hi2, hn1]
  show (do
    let insPair ← addLinesJ acc.instructionIndex
      (addLines acc.keywordIndex i (ings.map jStrD)) i insts
    let kw ← addOtherJ insPair.2 i [r.description, r.category, r.cuisine, r.author]
    pure ⟨addWords acc.titleIndex i (tokenizeLowered (pyLower (jStrD r.title))),
      addLines acc.ingredientIndex i (ings.map jStrD), insPair.1, kw⟩ :
      Except String Indices) = _
  rw [addLinesJ_ok insts hn2]
  show (do
    let kw ← addOtherJ
      (addLines (addLines acc.keywordIndex i (ings.map jStrD)) i (insts.map jStrD))
      i [r.description, r.category, r.cuisine, r.author]
    pure ⟨addWords acc.titleIndex i (tokenizeLowered (pyLower (jStrD r.title))),
      addLines acc.ingredientIndex i (ings.map jStrD),
      addLines acc.instructionIndex i (insts.map jStrD), kw⟩ :
      Except String Indices) = _
  rw [addOtherJ_ok [r.description, r.category, r.cuisine, r.author]
    (by
      intro v hv
      simp only [List.mem_cons, List.not_mem_nil, or_false] at hv
      rcases hv with rfl | rfl | rfl | rfl
      · exact h4
      · exact h5
      · exact h6
      · exact h7)]
  rw [hi3, hn3]
  rfl

theorem buildFromJ_ok (rs : List RecipeJson) (h : ∀ r ∈ rs, wellShaped r = true)
    (acc : Indices) (i : Nat) :
    buildFromJ acc i rs = .ok (buildFrom acc i (rs.map toRecipe)) := by
  induction rs generalizing acc i with
  | nil => rfl
  | cons r rest ih =>
    show (do
      let acc' ← indexRecipeJ acc i r
      buildFromJ acc' (i + 1) rest : Except String Indices) = _
    rw [indexRecipeJ_ok acc i r (h r (List.mem_cons_self r rest))]
    show buildFromJ (indexRecipe acc i (toRecipe r)) (i + 1) rest = _
    rw [ih (fun x hx => h x (List.mem_cons_of_mem r hx))]
    rfl

theorem get?_eq_some_getD {α : Type} [Inhabited α] (l : List α) (n : Nat)
    (h : n < l.length) : l.get? n = some (l.getD n default) := by
  rw [List.getD_eq_getElem?_getD, List.get?_eq_getElem?]
  cases hx : l[n]? with
  | none =>
    rw [List.getElem?_eq_none_iff] at hx
    omega
  | some v => rfl

/-!
## Claim theorems

One theorem (plus witness / counterexample where required) per claim of the
specification review.
-/

/-- Claim C1, counterexample: the claim says the attached `search_score`
equals the number of DISTINCT query tokens matched; on the query
`"salmon salmon"` the matching recipe is returned with score 2 although it
matches only one distinct token. -/
theorem claim_C1_counterexample :
    search_general sampleCorpus "salmon salmon" = [⟨sampleSalmon, 2⟩] ∧
      distinctMatched sampleCorpus "salmon salmon" 0 = 1 := by decide

/-- Claim C1, amended: each record returned by `search_general` carries a
`search_score` equal to the number of query-token OCCURRENCES (with
multiplicity in the query) whose token the recipe matches in the keyword
index; repetitions inside the document still count once. -/
theorem claim_C1_amended (rs : List Recipe) (q : String) :
    ∀ r ∈ search_general rs q, ∃ j, j < rs.length ∧
      rs.getD j default = r.recipe ∧
      r.search_score =
        matchCount (build_search_indices rs).keywordIndex (tokenize q) j := by
  intro r hr
  rw [mem_search_general] at hr
  obtain ⟨j, s, hmem, rfl⟩ := hr
  refine ⟨j, searchGeneralIds_lt_length rs q j s hmem, rfl, ?_⟩
  exact ((mem_searchGeneralIds rs q j s).mp hmem).1.symm

/-- Witness for the amended claim C1 at a concrete corpus and query. -/
theorem claim_C1_amended_witness :
    (⟨sampleSalmon, 2⟩ : ScoredRecipe) ∈ search_general sampleCorpus "salmon salmon" ∧
      ∃ j, j < sampleCorpus.length ∧
        sampleCorpus.getD j default = sampleSalmon ∧
        2 = matchCount (build_search_indices sampleCorpus).keywordIndex
          (tokenize "salmon salmon") j :=
  ⟨by decide,
    claim_C1_amended sampleCorpus "salmon salmon" ⟨sampleSalmon, 2⟩ (by decide)⟩

/-- Claim C2: general search returns exactly the positions matching at
least one query token (OR semantics); the output is sorted non-increasing
by `search_score`; and a record containing both tokens of a two-token query
gets score 2. -/
theorem claim_C2 (rs : List Recipe) (q : String) :
    (∀ j, (∃ s, (j, s) ∈ searchGeneralIds rs q) ↔
      ∃ w ∈ tokenize q, j ∈ (build_search_indices rs).keywordIndex w) ∧
    ((search_general rs q).map fun r => r.search_score).Sorted (fun a b => b ≤ a) ∧
    (∀ t1 t2 j, tokenize q = [t1, t2] →
      j ∈ (build_search_indices rs).keywordIndex t1 →
      j ∈ (build_search_indices rs).keywordIndex t2 →
      (j, 2) ∈ searchGeneralIds rs q) := by
  refine ⟨fun j => ?_, ?_, fun t1 t2 j hq h1 h2 => ?_⟩
  · constructor
    · rintro ⟨s, hs⟩
      obtain ⟨hc, hpos⟩ := (mem_searchGeneralIds rs q j s).mp hs
      rw [← hc] at hpos
      exact (matchCount_pos_iff _ _ _).mp hpos
    · intro hex
      exact ⟨matchCount (build_search_indices rs).keywordIndex (tokenize q) j,
        (mem_searchGeneralIds rs q j _).mpr
          ⟨rfl, (matchCount_pos_iff _ _ _).mpr hex⟩⟩
  · have hmap : ((search_general rs q).map fun r => r.search_score) =
        (searchGeneralIds rs q).map Prod.snd := by
      unfold search_general
      rw [List.map_map]
      rfl
    rw [hmap]
    exact List.Pairwise.map Prod.snd (fun a b hab => hab)
      (searchGeneralIdsWith_sorted (build_search_indices rs).keywordIndex q)
  · refine (mem_searchGeneralIds rs q j 2).mpr ⟨?_, by omega⟩
    unfold matchCount
    rw [hq, List.countP_cons, List.countP_cons, List.countP_nil,
      if_pos (by simpa using h2), if_pos (by simpa using h1)]

/-- Witness for claim C2: the sample corpus record matching both tokens of
`"salmon wine"` is returned with score 2. -/
theorem claim_C2_witness : (0, 2) ∈ searchGeneralIds sampleCorpus "salmon wine" :=
  (claim_C2 sampleCorpus "salmon wine").2.2 "salmon" "wine" 0
    (by decide) (by decide) (by decide)

/-- Claim C3: for word queries, the id set of a two-word title (resp.
ingredient) search is exactly the intersection of the two single-word
searches. -/
theorem claim_C3 (rs : List Recipe) (w1 w2 : String)
    (h1 : tokenize w1 ≠ []) (h2 : tokenize w2 ≠ []) :
    searchByTitleIds rs (w1 ++ " " ++ w2) =
      searchByTitleIds rs w1 ∩ searchByTitleIds rs w2 ∧
    searchByIngredientIds rs (w1 ++ " " ++ w2) =
      searchByIngredientIds rs w1 ∩ searchByIngredientIds rs w2 := by
  have hq : tokenize (w1 ++ " " ++ w2) = tokenize w1 ++ tokenize w2 :=
    tokenize_append_space w1 w2
  have hne : tokenize (w1 ++ " " ++ w2) ≠ [] := by
    rw [hq]
    simp [h1]
  constructor
  · ext j
    rw [mem_searchByTitleIds rs _ hne j, Finset.mem_inter,
      mem_searchByTitleIds rs w1 h1 j, mem_searchByTitleIds rs w2 h2 j, hq]
    exact List.forall_mem_append
  · ext j
    rw [mem_searchByIngredientIds rs _ hne j, Finset.mem_inter,
      mem_searchByIngredientIds rs w1 h1 j, mem_searchByIngredientIds rs w2 h2 j,
      hq]
    exact List.forall_mem_append

/-- Witness for claim C3 on the sample corpus. -/
theorem claim_C3_witness :
    searchByTitleIds sampleCorpus ("grilled" ++ " " ++ "salmon") =
      searchByTitleIds sampleCorpus "grilled" ∩ searchByTitleIds sampleCorpus "salmon" :=
  (claim_C3 sampleCorpus "grilled" "salmon" (by decide) (by decide)).1

/-- Claim C4, counterexample: the code tokenizes on `\w` runs, so the
underscore joins rather than splits; the claim's alphanumeric-run
tokenizer disagrees on `"a_b"`. -/
theorem claim_C4_counterexample :
    tokenize "a_b" = ["a_b"] ∧ tokenizeAlnumSpec "a_b" = ["a", "b"] ∧
      tokenize "a_b" ≠ tokenizeAlnumSpec "a_b" := by decide

/-- Claim C4, amended: tokenization lowercases the text and splits it into
maximal runs of WORD characters (alphanumeric or underscore, Python `\w`);
spans without word characters produce no token, and every produced token is
non-empty. -/
theorem claim_C4_amended (s : String) :
    tokenize s =
      ((((pyLower s).data.splitOnP fun c => !isWordChar c).filter
        fun cs => !cs.isEmpty).map fun cs => String.mk cs) ∧
    ∀ t ∈ tokenize s, t ≠ "" := by
  constructor
  · unfold tokenize
    rw [wordRuns_eq_splitOnP]
  · intro t ht
    unfold tokenize at ht
    rw [wordRuns_eq_splitOnP, List.mem_map] at ht
    obtain ⟨cs, hcs, rfl⟩ := ht
    rw [List.mem_filter] at hcs
    intro heq
    have hdata : cs = [] := congrArg String.data heq
    rw [hdata] at hcs
    simp at hcs

/-- Witness for the amended claim C4 at a concrete string. -/
theorem claim_C4_amended_witness :
    tokenize "a_b" =
      ((((pyLower "a_b").data.splitOnP fun c => !isWordChar c).filter
        fun cs => !cs.isEmpty).map fun cs => String.mk cs) ∧
    ("a_b" ∈ tokenize "a_b" ∧ "a_b" ≠ "") :=
  ⟨(claim_C4_amended "a_b").1,
    by decide, (claim_C4_amended "a_b").2 "a_b" (by decide)⟩

/-- Claim C5, counterexample: index construction is not total — a record
whose `title` is JSON `null` raises `AttributeError` at `.lower()` instead
of being treated as empty. -/
theorem claim_C5_counterexample :
    build_search_indicesJ
      [⟨JVal.jnull, JVal.absent, JVal.absent, JVal.absent, JVal.absent,
        JVal.absent, JVal.absent⟩] = Except.error "AttributeError" := rfl

/-- Claim C5, amended: construction succeeds, writing only the four maps,
for every record whose `title` is absent or a string, whose `ingredients`
and `instructions` are absent or lists of strings, and whose four optional
scalar fields are absent, `null` or strings; absent and `null` slots behave
exactly like empty fields (the result equals the string-typed build on the
coerced records). -/
theorem claim_C5_amended (rs : List RecipeJson)
    (h : ∀ r ∈ rs, wellShaped r = true) :
    build_search_indicesJ rs =
      Except.ok (build_search_indices (rs.map toRecipe)) :=
  buildFromJ_ok rs h emptyIndices 0

/-- Witness for the amended claim C5 on a concrete well-shaped JSON corpus. -/
theorem claim_C5_amended_witness :
    build_search_indicesJ sampleJson =
      Except.ok (build_search_indices (sampleJson.map toRecipe)) :=
  claim_C5_amended sampleJson (by decide)

/-- Claim C6: dietary search equals first-encounter deduplication of the
concatenated per-synonym general searches (so output order is first
encounter, not score); the output has no duplicate entries; a record is
output iff some synonym's general search returns it; and the score a kept
record carries is maximal among all occurrences of that record across the
synonym searches. -/
theorem claim_C6 (rs : List Recipe) (c : String) :
    search_by_dietary_needs rs c =
      dedupFirst (((dietaryTerms c).map fun k => search_general rs k).flatten) ∧
    (search_by_dietary_needs rs c).Nodup ∧
    (∀ r, r ∈ search_by_dietary_needs rs c ↔
      ∃ k ∈ dietaryTerms c, r ∈ search_general rs k) ∧
    ∀ r ∈ search_by_dietary_needs rs c, ∀ k ∈ dietaryTerms c,
      ∀ x ∈ search_general rs k, x.recipe = r.recipe →
        x.search_score ≤ r.search_score := by
  have heq := dietary_eq_dedupFirst rs c
  have hmem : ∀ r, r ∈ search_by_dietary_needs rs c ↔
      ∃ k ∈ dietaryTerms c, r ∈ search_general rs k := by
    intro r
    rw [heq, mem_dedupFirst, List.mem_flatten]
    constructor
    · rintro ⟨l, hl, hr⟩
      rw [List.mem_map] at hl
      obtain ⟨k, hk, rfl⟩ := hl
      exact ⟨k, hk, hr⟩
    · rintro ⟨k, hk, hr⟩
      exact ⟨search_general rs k, List.mem_map_of_mem _ hk, hr⟩
  refine ⟨heq, by rw [heq]; exact dedupFirst_nodup _, hmem, ?_⟩
  intro r hr k hk x hx hxr
  obtain ⟨k0, hk0, hr0⟩ := (hmem r).mp hr
  cases hfind : dietaryKeywords.find? (fun p => p.1 = pyLower c) with
  | some p =>
    have hterms : dietaryTerms c = p.2 := by
      unfold dietaryTerms
      rw [hfind]
    have hp := List.mem_of_find?_eq_some hfind
    have hsingle : ∀ k', k' ∈ dietaryTerms c →
        ∀ y, y ∈ search_general rs k' → y.search_score = 1 := by
      intro k' hk' y hy
      rw [hterms] at hk'
      have htok : tokenize k' = [k'] := dietaryKeywords_single_token p hp k' hk'
      rw [mem_search_general] at hy
      obtain ⟨j, s, hmem', rfl⟩ := hy
      show s = 1
      exact score_one_of_single_token rs k' k' htok j s hmem'
    rw [hsingle k hk x hx, hsingle k0 hk0 r hr0]
  | none =>
    have hterms : dietaryTerms c = [c] := by
      unfold dietaryTerms
      rw [hfind]
    rw [hterms, List.mem_singleton] at hk hk0
    rw [hk] at hx
    rw [hk0] at hr0
    rw [mem_search_general] at hx hr0
    obtain ⟨j, s, hjs, rfl⟩ := hx
    obtain ⟨j0, s0, hjs0, rfl⟩ := hr0
    have hjlt := searchGeneralIds_lt_length rs c j s hjs
    have hj0lt := searchGeneralIds_lt_length rs c j0 s0 hjs0
    have hgetj := get?_eq_some_getD rs j hjlt
    have hgetj0 := get?_eq_some_getD rs j0 hj0lt
    have hrr : rs.getD j default = rs.getD j0 default := hxr
    have hcount := matchCount_congr_of_eq rs (tokenize c) j j0 _ _ hgetj hgetj0 hrr
    have hs : matchCount (build_search_indices rs).keywordIndex (tokenize c) j = s :=
      ((mem_searchGeneralIds rs c j s).mp hjs).1
    have hs0 : matchCount (build_search_indices rs).keywordIndex (tokenize c) j0 = s0 :=
      ((mem_searchGeneralIds rs c j0 s0).mp hjs0).1
    show s ≤ s0
    omega

/-- Witness for claim C6 at a concrete corpus and category. -/
theorem claim_C6_witness :
    (⟨sampleCobbler, 1⟩ : ScoredRecipe) ∈
      search_by_dietary_needs sampleCorpus "dessert" ∧
    (ScoredRecipe.mk sampleCobbler 1).search_score ≤
      (ScoredRecipe.mk sampleCobbler 1).search_score :=
  ⟨by decide,
    (claim_C6 sampleCorpus "dessert").2.2.2 ⟨sampleCobbler, 1⟩ (by decide)
      "cobbler" (by decide) ⟨sampleCobbler, 1⟩ (by decide) rfl⟩

/-- Claim C7: a position is returned by cooking-method search iff every
query token appears in that recipe's title or instructions (union per
token, intersection across tokens). -/
theorem claim_C7 (rs : List Recipe) (q : String) (h : tokenize q ≠ [])
    (j : Nat) :
    j ∈ searchByCookingMethodIds rs q ↔
      ∀ w ∈ tokenize q,
        j ∈ (build_search_indices rs).titleIndex w ∨
          j ∈ (build_search_indices rs).instructionIndex w :=
  mem_searchByCookingMethodIds rs q h j

/-- Witness for claim C7: `"grill"` is in the instructions and `"salmon"`
in the title of the sample recipe. -/
theorem claim_C7_witness : 0 ∈ searchByCookingMethodIds sampleCorpus "grill salmon" :=
  (claim_C7 sampleCorpus "grill salmon" (by decide) 0).mpr (by decide)

/-- Claim C8: every one of the five query operations returns the empty list
on a query with no tokens (empty or punctuation-only). -/
theorem claim_C8 (rs : List Recipe) (q : String) (h : tokenize q = []) :
    search_by_title rs q = [] ∧ search_by_ingredient rs q = [] ∧
      search_by_cooking_method rs q = [] ∧ search_general rs q = [] ∧
      search_by_dietary_needs rs q = [] := by
  have hg : search_general rs q = [] := by
    unfold search_general searchGeneralIds searchGeneralIdsWith
    rw [if_pos h]
    rfl
  refine ⟨?_, ?_, ?_, hg, ?_⟩
  · unfold search_by_title
    rw [if_pos h]
  · unfold search_by_ingredient
    rw [if_pos h]
  · unfold search_by_cooking_method
    rw [if_pos h]
  · unfold search_by_dietary_needs
    rw [dietaryTerms_of_untokenizable q h]
    show (search_general rs q).foldl _ [] = []
    rw [hg]
    rfl

/-- Witness for claim C8 on the punctuation-only query. -/
theorem claim_C8_witness :
    search_by_title sampleCorpus "!!!" = [] ∧
      search_by_ingredient sampleCorpus "!!!" = [] ∧
      search_by_cooking_method sampleCorpus "!!!" = [] ∧
      search_general sampleCorpus "!!!" = [] ∧
      search_by_dietary_needs sampleCorpus "!!!" = [] :=
  claim_C8 sampleCorpus "!!!" (by decide)

/-- Claim C9: the keyword index holds, per recipe, exactly the tokens of
its ingredients, instructions, description, category, cuisine and author
(`keywordMem` deliberately excludes the title), and general search depends
on the corpus only through the keyword index. -/
theorem claim_C9 (rs : List Recipe) :
    (∀ t j, j ∈ (build_search_indices rs).keywordIndex t ↔
      ∃ r, rs.get? j = some r ∧ keywordMem t r) ∧
    ∀ (rs2 : List Recipe) (q : String),
      (build_search_indices rs).keywordIndex =
        (build_search_indices rs2).keywordIndex →
      searchGeneralIds rs q = searchGeneralIds rs2 q := by
  refine ⟨fun t j => mem_keywordIndex rs t j, fun rs2 q hkw => ?_⟩
  unfold searchGeneralIds
  rw [hkw]

/-- Witness for claim C9 (second part applied with a discharged index
equality). -/
theorem claim_C9_witness :
    (0 ∈ (build_search_indices sampleCorpus).keywordIndex "salmon" ↔
      ∃ r, sampleCorpus.get? 0 = some r ∧ keywordMem "salmon" r) ∧
    searchGeneralIds sampleCorpus "salmon" =
      searchGeneralIds sampleCorpus "salmon" :=
  ⟨(claim_C9 sampleCorpus).1 "salmon" 0,
    (claim_C9 sampleCorpus).2 sampleCorpus "salmon" rfl⟩

/-- Claim C10: dietary lookup is case-insensitive — the category is
lowercased before the synonym table lookup, and the fallback term is
lowercased by query tokenization, so any category and its lowercase form
return the same results. -/
theorem claim_C10 (rs : List Recipe) (c : String) :
    search_by_dietary_needs rs c = search_by_dietary_needs rs (pyLower c) := by
  unfold search_by_dietary_needs dietaryTerms
  rw [pyLower_idem]
  cases hfind : dietaryKeywords.find? fun p => p.1 = pyLower c with
  | some p => rfl
  | none =>
    show (search_general rs c).foldl _ [] = (search_general rs (pyLower c)).foldl _ []
    rw [search_general_pyLower]
